import Mathlib

/-!
Verification of the code-chunking and indexing subsystem of code-compass.

The source (src/code_indexer/chunking_utils.py and src/code_indexer/code_indexer.py)
is shallowly embedded here.  File contents are modelled as List Char.  The
Python regular expressions used by the chunkers are hand-compiled into
deterministic matchers that reproduce the backtracking semantics of Python's
re module on exactly those patterns (leftmost match, lazy and greedy
quantifier preference, non-overlapping findall/finditer scans).  Python's
str-level unicode whitespace and case rules are modelled at the ASCII level,
which covers every character class the source patterns mention.
-/

/-- Characters used by the matchers.  Braces are built from code points so
they never appear literally. -/
def nlChar : Char := '\n'

def lbraceChar : Char := Char.ofNat 123

def rbraceChar : Char := Char.ofNat 125

def lparenChar : Char := '('

def rparenChar : Char := ')'

def colonChar : Char := ':'

def semiChar : Char := ';'

def dotChar : Char := '.'

def slashChar : Char := '/'

def ltChar : Char := '<'

def gtChar : Char := '>'

def eqChar : Char := '='

/-- Python's regex class \s restricted to ASCII (space, tab, newline,
carriage return, vertical tab, form feed). -/
def isSpaceChar (c : Char) : Bool :=
  c = ' ' || c = '\t' || c = '\n' || c = '\r' || c = '\x0b' || c = '\x0c'

/-- Python's regex class \w restricted to ASCII. -/
def isWordChar (c : Char) : Bool :=
  ('a' ≤ c && c ≤ 'z') || ('A' ≤ c && c ≤ 'Z') || ('0' ≤ c && c ≤ '9') || c = '_'

/-- True when the list holds at least one non-whitespace character. -/
def hasNonWS (l : List Char) : Bool := l.any (fun c => !(isSpaceChar c))

/-- Does pat occur at the head of text (str.startswith for lists)? -/
def startsWith : List Char → List Char → Bool
  | [], _ => true
  | _ :: _, [] => false
  | p :: ps, c :: cs => c = p && startsWith ps cs

/-- Substring occurrence test (Python's `pat in text`). -/
def occursIn (pat : List Char) : List Char → Bool
  | [] => startsWith pat []
  | c :: t => startsWith pat (c :: t) || occursIn pat t

/-- Python str.strip(): remove leading and trailing whitespace. -/
def stripWS (l : List Char) : List Char :=
  (((l.dropWhile isSpaceChar).reverse).dropWhile isSpaceChar).reverse

/-- Helper for splitNl: prepend a character to the first piece. -/
def consHead (c : Char) : List (List Char) → List (List Char)
  | [] => [[c]]
  | h :: r => (c :: h) :: r

/-- Python str.split for the single separator '\n' (keeps empty pieces,
always returns at least one piece). -/
def splitNl : List Char → List (List Char)
  | [] => [[]]
  | c :: t => if c = nlChar then [] :: splitNl t else consHead c (splitNl t)

/-- Python '\n'.join. -/
def joinNl : List (List Char) → List Char
  | [] => []
  | [x] => x
  | x :: y :: r => x ++ nlChar :: joinNl (y :: r)

/-- Consecutive windows of n elements (lines[i:i+n] for i in range(0,len,n)).
The fuel argument bounds the recursion; windows supplies enough. -/
def windowsAux (n : Nat) : Nat → List α → List (List α)
  | 0, _ => []
  | _ + 1, [] => []
  | fuel + 1, x :: t => (x :: t).take n :: windowsAux n fuel ((x :: t).drop n)

def windows (n : Nat) (l : List α) : List (List α) :=
  if n = 0 then [] else windowsAux n l.length l

/-- chunk_by_lines from chunking_utils.py: split into max_lines-sized line
windows, keep only windows whose joined text is non-empty after strip. -/
def chunk_by_lines (content : List Char) (maxLines : Nat) : List (List Char) :=
  (windows maxLines (splitNl content)).filterMap (fun w =>
    let ch := joinNl w
    if stripWS ch = [] then none else some ch)

/-- Python list slicing content[s:e] for 0 ≤ s ≤ e (clamped like Python). -/
def sliceL (l : List Char) (s e : Nat) : List Char := (l.drop s).take (e - s)

/-!
Matcher primitives.  Each pattern matcher takes the suffix of the content at
the current scan position and returns the remaining suffix after the match
(or none).  The matched text is recovered from the length difference.
-/

/-- Match a literal character sequence, returning the rest. -/
def litM : List Char → List Char → Option (List Char)
  | [], cs => some cs
  | _ :: _, [] => none
  | p :: ps, c :: cs => if c = p then litM ps cs else none

/-- First literal of the list that matches at this position (Python
alternation order; the literals used are pairwise non-prefix, so the first
match is the only one). -/
def tryLits : List (List Char) → List Char → Option (List Char)
  | [], _ => none
  | k :: r, cs =>
    match litM k cs with
    | some rest => some rest
    | none => tryLits r cs

/-- Regex \s* : drop all leading whitespace. -/
def dropSpaces (cs : List Char) : List Char := cs.dropWhile isSpaceChar

/-- Regex \s+ : at least one whitespace character, consumed maximally. -/
def spaces1 (cs : List Char) : Option (List Char) :=
  match cs with
  | c :: t => if isSpaceChar c then some (dropSpaces t) else none
  | [] => none

/-- Regex \w+ : at least one word character, consumed maximally. -/
def word1 (cs : List Char) : Option (List Char) :=
  match cs with
  | c :: t => if isWordChar c then some (t.dropWhile isWordChar) else none
  | [] => none

/-- One-or-more characters of a class, consumed maximally. -/
def cls1 (p : Char → Bool) (cs : List Char) : Option (List Char) :=
  match cs with
  | c :: t => if p c then some (t.dropWhile p) else none
  | [] => none

/-- Consume up to and including the first occurrence of stop; none if stop is
absent.  Models a lazy [^stop]*stop (the class crosses newlines). -/
def upThrough (stop : Char) : List Char → Option (List Char)
  | [] => none
  | c :: t => if c = stop then some t else upThrough stop t

/-- Like upThrough but the consumed characters may not include a newline
(models a lazy .*?stop without DOTALL). -/
def upThroughNoNl (stop : Char) : List Char → Option (List Char)
  | [] => none
  | c :: t => if c = stop then some t else if c = nlChar then none else upThroughNoNl stop t

/-- Try a continuation on each candidate rest, in preference order. -/
def firstSome : List (List Char) → (List Char → Option (List Char)) → Option (List Char)
  | [], _ => none
  | c :: r, f =>
    match f c with
    | some v => some v
    | none => firstSome r f

/-- Wrap a rest-returning matcher into a (matched text, rest) step for the
scanners.  Every matcher only ever removes a prefix, so the match is the
length difference. -/
def stepOfRest (f : List Char → Option (List Char)) (cs : List Char) :
    Option (List Char × List Char) :=
  match f cs with
  | none => none
  | some rest => some (cs.take (cs.length - rest.length), rest)

/-- re.findall / re.finditer scan: try the step at every position, from the
left; on a match record it and resume at the match end (non-overlapping);
Python advances one position past a zero-width match.  Fuel is supplied as
length+1, which always suffices. -/
def scanAll (step : List Char → Option (List Char × List Char)) :
    Nat → List Char → List (List Char)
  | 0, _ => []
  | fuel + 1, cs =>
    match step cs with
    | some (m, rest) =>
      if rest.length < cs.length then m :: scanAll step fuel rest
      else
        m :: (match cs with
        | [] => []
        | _ :: t => scanAll step fuel t)
    | none =>
      match cs with
      | [] => []
      | _ :: t => scanAll step fuel t

/-- Like scanAll but records (start, end) spans, as re.finditer match.start()
and match.end() do. -/
def scanSpans (step : List Char → Option (List Char × List Char)) :
    Nat → Nat → List Char → List (Nat × Nat)
  | 0, _, _ => []
  | fuel + 1, pos, cs =>
    match step cs with
    | some (m, rest) =>
      if rest.length < cs.length then
        (pos, pos + m.length) :: scanSpans step fuel (pos + m.length) rest
      else
        (pos, pos + m.length) :: (match cs with
        | [] => []
        | _ :: t => scanSpans step fuel (pos + 1) t)
    | none =>
      match cs with
      | [] => []
      | _ :: t => scanSpans step fuel (pos + 1) t

/-- str.replace(pat, '') : delete every (leftmost, non-overlapping)
occurrence of pat.  Fuel is supplied as length+1, which always suffices;
an empty pattern leaves the text unchanged on non-matching heads, matching
Python's behaviour of inserting nothing. -/
def replaceAllAux (pat : List Char) : Nat → List Char → List Char
  | 0, cs => cs
  | fuel + 1, cs =>
    if pat ≠ [] && startsWith pat cs then
      replaceAllAux pat fuel (cs.drop pat.length)
    else
      match cs with
      | [] => []
      | c :: t => c :: replaceAllAux pat fuel t

def replaceAll (text pat : List Char) : List Char :=
  replaceAllAux pat (text.length + 1) text

/-- content.replace(m, '') folded over a list of matches, in order. -/
def removeAllOcc (text : List Char) (pats : List (List Char)) : List Char :=
  pats.foldl (fun c p => replaceAll c p) text

/-!
Python-family chunker (chunk_python_file).

class_pattern = (class\s+\w+\s*(?:\([^)]*\))?\s*:(?:.|\n)*?)(?=\n\S|$)
function_pattern = (def\s+\w+\s*\([^)]*\)\s*(?:->.*?)?\s*:(?:.|\n)*?)(?=\n\S|$)
-/

/-- The zero-width lookahead (?=\n\S|$) of the python patterns, tested at a
suffix: a newline followed by a non-space character, the end of the string,
or the position just before a final trailing newline. -/
def pyLook : List Char → Bool
  | [] => true
  | [c] => c = nlChar
  | c :: d :: _ => c = nlChar && !(isSpaceChar d)

/-- The lazy body (?:.|\n)*? expanded minimally until pyLook holds; returns
the rest at the lookahead position.  pyLook holds at the end of the string,
so this never fails. -/
def pyBody : List Char → List Char
  | [] => []
  | c :: t => if pyLook (c :: t) then c :: t else pyBody t

/-- Optional (?:\([^)]*\))? followed by context requiring ':' :  if a '(' is
present the group must close (the skip alternative can never rescue it,
because ':' differs from '('). -/
def parenOpt (cs : List Char) : Option (List Char) :=
  match cs with
  | c :: t => if c = lparenChar then upThrough rparenChar t else some (c :: t)
  | [] => some []

/-- Head-to-body matcher for the python class pattern; returns the rest at
the match end. -/
def pyClassRest (cs : List Char) : Option (List Char) :=
  (litM (("class").data) cs).bind fun r1 =>
  (spaces1 r1).bind fun r2 =>
  (word1 r2).bind fun r3 =>
  (parenOpt (dropSpaces r3)).bind fun r4 =>
  match dropSpaces r4 with
  | c :: t => if c = colonChar then some (pyBody t) else none
  | [] => none

/-- The (?:->.*?)?\s*: tail of the python function pattern, entered after
the closing parenthesis and \s*.  The lazy .*? stops at the first position
from which \s*: succeeds; it cannot cross a newline. -/
def colonAfterSpaces (cs : List Char) : Option (List Char) :=
  match dropSpaces cs with
  | c :: t => if c = colonChar then some t else none
  | [] => none

def arrowScan : List Char → Option (List Char)
  | [] => none
  | c :: t =>
    match colonAfterSpaces (c :: t) with
    | some r => some r
    | none => if c = nlChar then none else arrowScan t

def arrowColon (cs : List Char) : Option (List Char) :=
  match cs with
  | '-' :: '>' :: t => arrowScan t
  | c :: t => if c = colonChar then some t else none
  | [] => none

/-- Head-to-body matcher for the python function pattern. -/
def pyFuncRest (cs : List Char) : Option (List Char) :=
  (litM (("def").data) cs).bind fun r1 =>
  (spaces1 r1).bind fun r2 =>
  (word1 r2).bind fun r3 =>
  match dropSpaces r3 with
  | c :: t =>
    if c = lparenChar then
      (upThrough rparenChar t).bind fun r5 =>
      (arrowColon (dropSpaces r5)).bind fun r6 => some (pyBody r6)
    else none
  | [] => none

def pyClassScan (content : List Char) : List (List Char) :=
  scanAll (stepOfRest pyClassRest) (content.length + 1) content

def pyFuncScan (content : List Char) : List (List Char) :=
  scanAll (stepOfRest pyFuncRest) (content.length + 1) content

/-- The module-level residue collector of chunk_python_file: top-level
non-blank lines open or extend the current chunk, and once a chunk is open
every following line is appended; at most one residue chunk results. -/
def pyResidue (content : List Char) : List (List Char) :=
  let acc := (splitNl content).foldl (fun cur line =>
    if stripWS line ≠ [] && !(startsWith ([' ']) line) then cur ++ [line]
    else if cur ≠ [] then cur ++ [line]
    else cur) []
  if acc = [] then [] else [joinNl acc]

/-- The `if len(chunks) <= 1: return [content]` fallback shared by the three
structural chunkers.  Note that chunk_python_file passes its mutated working
copy here, not the original input. -/
def fallbackTo (whole : List Char) (chunks : List (List Char)) : List (List Char) :=
  if chunks.length ≤ 1 then [whole] else chunks

/-- chunk_python_file from chunking_utils.py. -/
def chunk_python_file (content : List Char) : List (List Char) :=
  let classes := pyClassScan content
  let contentAfterClasses := removeAllOcc content classes
  let functions := pyFuncScan contentAfterClasses
  let contentAfterFunctions := removeAllOcc contentAfterClasses functions
  fallbackTo contentAfterFunctions (classes ++ functions ++ pyResidue contentAfterFunctions)

/-!
C-style chunker (chunk_c_style_file).

class_pattern = ((?:public|private|protected)?\s*(?:class|struct|interface)\s+
  \w+(?:<.*?>)?(?:\s+extends\s+\w+(?:<.*?>)?)?(?:\s+implements\s+[\w,\s<>]+)?
  \s*\{(?:.|\n)*?)(^\}) with re.MULTILINE
method_pattern = ((?:public|...|transient)(?:\s+(?:public|...|transient))*\s+
  [\w<>\[\]]+\s+\w+\s*\([^\)]*\)(?:\s+throws[\w,\s]+)?\s*\{(?:.|\n)*?)(^\})
import_pattern = (package\s+[\w.]+;|import\s+[\w.*]+;)
-/

/-- The lazy (?:.|\n)*? body followed by the MULTILINE (^\}) group: consume
characters until a closing brace that sits at the start of a line; the brace
itself is part of the match.  The character just before the body is the
opening brace, so the body can never begin at a line start. -/
def braceBody (prev : Char) : List Char → Option (List Char)
  | [] => none
  | c :: t =>
    if prev = nlChar && c = rbraceChar then some t else braceBody c t

def expectBrace (cs : List Char) : Option (List Char) :=
  match cs with
  | c :: t => if c = lbraceChar then some t else none
  | [] => none

/-- Candidate rests of a lazy <.*?> generic group (every '>' reachable
without crossing a newline, nearest first), followed by the skip
alternative of the enclosing (?:...)? (greedy option: match first). -/
def afterLazyUpTo (stop : Char) : List Char → List (List Char)
  | [] => []
  | c :: t =>
    if c = nlChar then []
    else if c = stop then t :: afterLazyUpTo stop t
    else afterLazyUpTo stop t

def genericCands (cs : List Char) : List (List Char) :=
  match cs with
  | c :: t => if c = ltChar then afterLazyUpTo gtChar t ++ [c :: t] else [c :: t]
  | [] => [[]]

/-- Candidates of (?:\s+extends\s+\w+(?:<.*?>)?)? : the full group (with its
generic candidates) first, then the skip alternative. -/
def extendsCands (cs : List Char) : List (List Char) :=
  match (spaces1 cs).bind (fun a => (litM (("extends").data) a).bind
      (fun b => (spaces1 b).bind (fun c' => word1 c'))) with
  | some r => genericCands r ++ [cs]
  | none => [cs]

/-- The class [\w,\s<>] of the implements clause. -/
def isImplChar (c : Char) : Bool :=
  isWordChar c || c = ',' || isSpaceChar c || c = ltChar || c = gtChar

/-- (?:\s+implements\s+[\w,\s<>]+)?\s*\{ : because \s is contained in the
bracket class, the two greedy pieces after the keyword amount to a maximal
run of class characters that starts with a whitespace character and has
length at least two; '{' is outside the class, so backtracking inside the
run can never move the brace. -/
def implementsBrace (cs : List Char) : Option (List Char) :=
  let attempt : Option (List Char) :=
    (spaces1 cs).bind fun a =>
    (litM (("implements").data) a).bind fun b =>
    match b with
    | c :: _ =>
      if isSpaceChar c then
        let r := b.dropWhile isImplChar
        if 2 ≤ b.length - r.length then some r else none
      else none
    | [] => none
  match attempt with
  | some r => expectBrace r
  | none => expectBrace (dropSpaces cs)

def accessMods : List (List Char) :=
  [("public").data, ("private").data, ("protected").data]

def typeKws : List (List Char) :=
  [("class").data, ("struct").data, ("interface").data]

/-- Head-to-body matcher for the c-style class pattern. -/
def cClassRest (cs : List Char) : Option (List Char) :=
  let r0 := match tryLits accessMods cs with
    | some r => r
    | none => cs
  (tryLits typeKws (dropSpaces r0)).bind fun r2 =>
  (spaces1 r2).bind fun r3 =>
  (word1 r3).bind fun r4 =>
  firstSome (genericCands r4) fun g1 =>
  firstSome (extendsCands g1) fun g2 =>
  (implementsBrace g2).bind fun r5 => braceBody lbraceChar r5

def methodMods : List (List Char) :=
  [("public").data, ("private").data, ("protected").data, ("static").data,
   ("final").data, ("native").data, ("synchronized").data, ("abstract").data,
   ("transient").data]

/-- Candidates after the greedy (?:\s+(?:mод))* modifier star, most
iterations first.  Fuel bounds the recursion; each iteration consumes at
least six characters, so length+1 always suffices. -/
def modStarCandsAux : Nat → List Char → List (List Char)
  | 0, cs => [cs]
  | fuel + 1, cs =>
    match (spaces1 cs).bind (fun a => tryLits methodMods a) with
    | some r => modStarCandsAux fuel r ++ [cs]
    | none => [cs]

def modStarCands (cs : List Char) : List (List Char) :=
  modStarCandsAux (cs.length + 1) cs

/-- The class [\w<>\[\]] of the method return type. -/
def isTypeChar (c : Char) : Bool :=
  isWordChar c || c = ltChar || c = gtChar || c = '[' || c = ']'

/-- The class [\w,\s] of the throws clause. -/
def isThrowsChar (c : Char) : Bool := isWordChar c || c = ',' || isSpaceChar c

/-- (?:\s+throws[\w,\s]+)?\s*\{ , with the same maximal-run argument as the
implements clause. -/
def throwsBrace (cs : List Char) : Option (List Char) :=
  let attempt : Option (List Char) :=
    (spaces1 cs).bind fun a =>
    (litM (("throws").data) a).bind fun b =>
    match b with
    | c :: _ => if isThrowsChar c then some (b.dropWhile isThrowsChar) else none
    | [] => none
  match attempt with
  | some r => expectBrace r
  | none => expectBrace (dropSpaces cs)

/-- Head-to-body matcher for the c-style method pattern.  The pattern can
only start with one of the nine modifier keywords. -/
def cMethodRest (cs : List Char) : Option (List Char) :=
  (tryLits methodMods cs).bind fun r0 =>
  firstSome (modStarCands r0) fun r1 =>
  (spaces1 r1).bind fun r2 =>
  (cls1 isTypeChar r2).bind fun r3 =>
  (spaces1 r3).bind fun r4 =>
  (word1 r4).bind fun r5 =>
  match dropSpaces r5 with
  | c :: t =>
    if c = lparenChar then
      (upThrough rparenChar t).bind fun r6 =>
      (throwsBrace r6).bind fun r7 => braceBody lbraceChar r7
    else none
  | [] => none

/-- The classes [\w.] and [\w.*] of the package/import pattern. -/
def isPkgChar (c : Char) : Bool := isWordChar c || c = dotChar

def isImpChar (c : Char) : Bool := isWordChar c || c = dotChar || c = '*'

def expectSemi (cs : List Char) : Option (List Char) :=
  match cs with
  | c :: t => if c = semiChar then some t else none
  | [] => none

/-- (package\s+[\w.]+;|import\s+[\w.*]+;) : ';' is outside both bracket
classes, and the two keyword branches cannot match at the same position. -/
def cImportRest (cs : List Char) : Option (List Char) :=
  match (litM (("package").data) cs).bind (fun a =>
      (spaces1 a).bind (fun b => cls1 isPkgChar b)) with
  | some r => expectSemi r
  | none =>
    (litM (("im" ++ "port").data) cs).bind fun a =>
    (spaces1 a).bind fun b =>
    (cls1 isImpChar b).bind expectSemi

def cClassSpans (content : List Char) : List (Nat × Nat) :=
  scanSpans (stepOfRest cClassRest) (content.length + 1) 0 content

def cClassSegs (content : List Char) : List (List Char) :=
  (cClassSpans content).map (fun se => sliceL content se.1 se.2)

/-- Insertion sort on pairs in lexicographic order (Python sorted on
tuples). -/
def insPair (x : Nat × Nat) : List (Nat × Nat) → List (Nat × Nat)
  | [] => [x]
  | y :: r =>
    if x.1 < y.1 || (x.1 = y.1 && x.2 ≤ y.2) then x :: y :: r else y :: insPair x r

def sortPairs : List (Nat × Nat) → List (Nat × Nat)
  | [] => []
  | x :: r => insPair x (sortPairs r)

/-- One step of the uncovered-range loop of chunk_c_style_file /
chunk_javascript_file: for every current range (a,b) keep (a,start) when
a < start and (end,b) when end < b. -/
def subtractSpan (ranges : List (Nat × Nat)) (span : Nat × Nat) : List (Nat × Nat) :=
  ranges.flatMap (fun r =>
    (if r.1 < span.1 then [(r.1, span.1)] else []) ++
    (if span.2 < r.2 then [(span.2, r.2)] else []))

def uncoveredRanges (len : Nat) (spans : List (Nat × Nat)) : List (Nat × Nat) :=
  (sortPairs spans).foldl subtractSpan [(0, len)]

def cMethodScan (sec : List Char) : List (List Char) :=
  scanAll (stepOfRest cMethodRest) (sec.length + 1) sec

/-- The method-extraction pass of chunk_c_style_file: scan each uncovered
range's section for the method pattern. -/
def cMethodSegs (content : List Char) : List (List Char) :=
  (uncoveredRanges content.length (cClassSpans content)).flatMap
    (fun r => cMethodScan (sliceL content r.1 r.2))

def cImportScan (content : List Char) : List (List Char) :=
  scanAll (stepOfRest cImportRest) (content.length + 1) content

/-- chunk_c_style_file from chunking_utils.py. -/
def chunk_c_style_file (content : List Char) : List (List Char) :=
  let importChunk := if cImportScan content = [] then [] else [joinNl (cImportScan content)]
  fallbackTo content (cClassSegs content ++ cMethodSegs content ++ importChunk)

/-!
JavaScript chunker (chunk_javascript_file).

class_pattern = (class\s+\w+(?:\s+extends\s+\w+)?\s*\{(?:.|\n)*?)(^\})
function_patterns =
  (function\s+\w+\s*\([^)]*\)\s*\{(?:.|\n)*?)(^\})
  (const\s+\w+\s*=\s*(?:async\s*)?\([^)]*\)\s*=>\s*\{(?:.|\n)*?)(^\})
  (let\s+...), (var\s+...)  with the same shape as const
  (export\s+(?:default\s+)?function\s+\w+\s*\([^)]*\)\s*\{(?:.|\n)*?)(^\})
import_pattern = (import\s+.*?;|require\(.*?\))
-/

/-- Candidates of (?:\s+extends\s+\w+)? for the javascript class pattern. -/
def jsExtendsCands (cs : List Char) : List (List Char) :=
  match (spaces1 cs).bind (fun a => (litM (("extends").data) a).bind
      (fun b => (spaces1 b).bind (fun c' => word1 c'))) with
  | some r => [r, cs]
  | none => [cs]

/-- Head-to-body matcher for the javascript class pattern. -/
def jsClassRest (cs : List Char) : Option (List Char) :=
  (litM (("class").data) cs).bind fun r1 =>
  (spaces1 r1).bind fun r2 =>
  (word1 r2).bind fun r3 =>
  firstSome (jsExtendsCands r3) fun g =>
  (expectBrace (dropSpaces g)).bind fun r => braceBody lbraceChar r

/-- \([^)]*\)\s*\{(?:.|\n)*?(^\}) shared by the function-shaped patterns. -/
def parenBraceBody (cs : List Char) : Option (List Char) :=
  match cs with
  | c :: t =>
    if c = lparenChar then
      (upThrough rparenChar t).bind fun r =>
      (expectBrace (dropSpaces r)).bind fun b => braceBody lbraceChar b
    else none
  | [] => none

/-- function\s+\w+\s*\([^)]*\)\s*\{...(^\}) -/
def jsNamedFuncRest (cs : List Char) : Option (List Char) :=
  (litM (("function").data) cs).bind fun r1 =>
  (spaces1 r1).bind fun r2 =>
  (word1 r2).bind fun r3 =>
  parenBraceBody (dropSpaces r3)

/-- kw\s+\w+\s*=\s*(?:async\s*)?\([^)]*\)\s*=>\s*\{...(^\}) for kw one of
const, let, var.  If async matches but the parenthesis does not follow, the
skip alternative cannot rescue the match ('a' is not '('). -/
def jsArrowRest (kw : List Char) (cs : List Char) : Option (List Char) :=
  (litM kw cs).bind fun r1 =>
  (spaces1 r1).bind fun r2 =>
  (word1 r2).bind fun r3 =>
  match dropSpaces r3 with
  | c :: t =>
    if c = eqChar then
      let r5 := dropSpaces t
      let r6 := match litM (("async").data) r5 with
        | some a => dropSpaces a
        | none => r5
      match r6 with
      | d :: u =>
        if d = lparenChar then
          (upThrough rparenChar u).bind fun r7 =>
          match dropSpaces r7 with
          | '=' :: '>' :: v => (expectBrace (dropSpaces v)).bind fun b => braceBody lbraceChar b
          | _ => none
        else none
      | [] => none
    else none
  | [] => none

/-- export\s+(?:default\s+)?function... ; 'default' and 'function' cannot
match at the same position, so the optional group commits. -/
def jsExportFuncRest (cs : List Char) : Option (List Char) :=
  (litM (("export").data) cs).bind fun r1 =>
  (spaces1 r1).bind fun r2 =>
  (match (litM (("default").data) r2).bind spaces1 with
    | some a => some a
    | none => some r2).bind fun r3 =>
  (litM (("function").data) r3).bind fun r4 =>
  (spaces1 r4).bind fun r5 =>
  (word1 r5).bind fun r6 =>
  parenBraceBody (dropSpaces r6)

/-- The five function patterns, in source order. -/
def jsFuncRests : List (List Char → Option (List Char)) :=
  [jsNamedFuncRest,
   jsArrowRest (("const").data),
   jsArrowRest (("let").data),
   jsArrowRest (("var").data),
   jsExportFuncRest]

def expectParen (cs : List Char) : Option (List Char) :=
  match cs with
  | c :: t => if c = lparenChar then some t else none
  | [] => none

/-- (import\s+.*?;|require\(.*?\)) : both lazy bodies stop at the first
delimiter and cannot cross a newline. -/
def jsImportRest (cs : List Char) : Option (List Char) :=
  match (litM (("im" ++ "port").data) cs).bind spaces1 with
  | some r => upThroughNoNl semiChar r
  | none =>
    (litM (("require").data) cs).bind fun a =>
    (expectParen a).bind fun b => upThroughNoNl rparenChar b

def jsClassSpans (content : List Char) : List (Nat × Nat) :=
  scanSpans (stepOfRest jsClassRest) (content.length + 1) 0 content

def jsClassSegs (content : List Char) : List (List Char) :=
  (jsClassSpans content).map (fun se => sliceL content se.1 se.2)

/-- The function-extraction pass over one section: each of the five
patterns is scanned over the whole section in turn. -/
def jsFuncScanSection (sec : List Char) : List (List Char) :=
  jsFuncRests.flatMap (fun f => scanAll (stepOfRest f) (sec.length + 1) sec)

def jsFuncSegs (content : List Char) : List (List Char) :=
  (uncoveredRanges content.length (jsClassSpans content)).flatMap
    (fun r => jsFuncScanSection (sliceL content r.1 r.2))

def jsImportScan (content : List Char) : List (List Char) :=
  scanAll (stepOfRest jsImportRest) (content.length + 1) content

/-- chunk_javascript_file from chunking_utils.py. -/
def chunk_javascript_file (content : List Char) : List (List Char) :=
  let importChunk := if jsImportScan content = [] then [] else [joinNl (jsImportScan content)]
  fallbackTo content (jsClassSegs content ++ jsFuncSegs content ++ importChunk)

/-!
Extension dispatch (chunk_code_file), with os.path.splitext: the extension
is the suffix of the basename from its last dot, unless every character
before that dot is itself a dot.
-/

def basenameOf (p : List Char) : List Char :=
  ((p.reverse.takeWhile (fun c => !(c = slashChar))).reverse)

/-- Walk the reversed basename; acc accumulates the characters after the
last dot, in original order. -/
def extOfAux : List Char → List Char → List Char
  | _, [] => []
  | acc, c :: t =>
    if c = dotChar then
      if t.any (fun d => !(d = dotChar)) then dotChar :: acc else []
    else extOfAux (c :: acc) t

def extOf (p : List Char) : List Char := extOfAux [] (basenameOf p).reverse

/-- chunk_code_file from chunking_utils.py: dispatch on the lowercased
extension. -/
def chunk_code_file (content : List Char) (path : List Char) : List (List Char) :=
  let e := (extOf path).map Char.toLower
  if e = (".py").data then chunk_python_file content
  else if e = (".java").data ∨ e = (".cs").data ∨ e = (".cpp").data ∨
      e = (".c").data ∨ e = (".h").data then chunk_c_style_file content
  else if e = (".js").data ∨ e = (".ts").data then chunk_javascript_file content
  else chunk_by_lines content 100

/-!
Indexing model (process_repository in code_indexer.py).

The store is a map from integer point id to payload text; upsert replaces
the entry at an id.  One process_repository call batches its chunk list in
fixed-size batches and upserts points with id = batch offset + position in
batch.  The embedding vectors play no role in the properties below and are
omitted from the payload.
-/

/-- (List.range l.length).zip l : Python enumerate. -/
def enumL (l : List (List Char)) : List (Nat × List Char) :=
  (List.range l.length).zip l

/-- The points upserted for one repository's chunk list: the loop
`for i in range(0, len(all_chunks), batch_size)` with points id i+j.
Each step consumes at least one chunk when 0 < bs, so fuel = length
suffices. -/
def runPointsAux (bs : Nat) : Nat → Nat → List (List Char) → List (Nat × List Char)
  | 0, _, _ => []
  | _ + 1, _, [] => []
  | fuel + 1, i, c :: rem =>
    (enumL ((c :: rem).take bs)).map (fun jc => (i + jc.1, jc.2)) ++
      runPointsAux bs fuel (i + bs) ((c :: rem).drop bs)

def runPoints (chunks : List (List Char)) (bs : Nat) : List (Nat × List Char) :=
  runPointsAux bs chunks.length 0 chunks

/-- qdrant upsert of a list of points into the id-keyed store. -/
def upsertPoints (store : Nat → Option (List Char)) (pts : List (Nat × List Char)) :
    Nat → Option (List Char) :=
  pts.foldl (fun st p => fun x => if x = p.1 then some p.2 else st x) store

/-- One Walker+Indexing run of process_repository against a store. -/
def indexRun (store : Nat → Option (List Char)) (chunks : List (List Char))
    (bs : Nat) : Nat → Option (List Char) :=
  upsertPoints store (runPoints chunks bs)

/-- The id sequence upserted over a whole main() run: one process_repository
call per configured repository, each restarting its batch offset at 0. -/
def mainRunIds (repos : List (List (List Char))) (bs : Nat) : List Nat :=
  repos.flatMap (fun chunks => (runPoints chunks bs).map Prod.fst)

/-!
Walker model (the per-file loop of process_repository).

Reading and chunking a file can fail for any reason (decode error, read
error, exception inside chunk_code_file); the loop body wraps all of it in
try/except, so a file either contributes all its chunks (tagged with the
path and its ordinal chunk_id) or, on any exception, nothing.
-/

def excludedDirs : List (List Char) :=
  [("node_modules").data, ("venv").data, (".git").data,
   ("__pycache__").data, ("build").data, ("dist").data]

/-- any(excluded_dir in file_path ...) -/
def isExcluded (path : List Char) : Bool :=
  excludedDirs.any (fun d => occursIn d path)

/-- What one file adds to all_chunks/file_metadata: nothing when excluded
or when its processing raised, otherwise every chunk with its ordinal. -/
def fileContribution (fp : List Char)
    (r : Except (List Char) (List (List Char))) : List (List Char × Nat × List Char) :=
  if isExcluded fp then []
  else
    match r with
    | Except.ok cs => (enumL cs).map (fun ic => (fp, ic.1, ic.2))
    | Except.error _ => []

/-- The file loop of process_repository: fold over the enumerated files,
appending each file's contribution. -/
def processRepoChunks (files : List (List Char))
    (attempt : List Char → Except (List Char) (List (List Char))) :
    List (List Char × Nat × List Char) :=
  files.foldl (fun acc fp => acc ++ fileContribution fp (attempt fp)) []

/-- The value the store holds at x after upserting pts: the last point with
id x wins. -/
def findLastVal (pts : List (Nat × List Char)) (x : Nat) : Option (List Char) :=
  pts.foldl (fun acc p => if x = p.1 then some p.2 else acc) none

/-!
Concrete inputs and range predicates used when settling the claims.
-/

/-- A python file whose only top-level definition is one class. -/
def pyOneClass : List Char := ("class A:\n    pass").data

/-- A python file with an indented orphan line before a class and a
function; the orphan line is module-level text that the residue collector
skips (it is indented and no chunk is open). -/
def orphanPy : List Char := ("    orphan\nclass A:\n    pass\ndef f():\n    pass").data

def orphanLine : List Char := ("    orphan").data

/-- A c-style file: one class containing two methods, nothing else. -/
def c7content : List Char :=
  ("public class A \x7b\n  public int f() \x7b\n    return 1;\n  \x7d\n  public int g() \x7b\n    return 2;\n  \x7d\n\x7d\n").data

/-- A c-style file with text before two classes, exposing the
uncovered-range computation to a span that is not first. -/
def c10content : List Char :=
  ("x\nclass A \x7b\na\n\x7d\nz\nclass B \x7b\nb\n\x7d\ny").data

/-- Half-open interval overlap. -/
def rangeOverlaps (r1 r2 : Nat × Nat) : Bool := r1.1 < r2.2 && r2.1 < r1.2

def pairwiseDisjointRanges : List (Nat × Nat) → Bool
  | [] => true
  | r :: rest => rest.all (fun r2 => !(rangeOverlaps r r2)) && pairwiseDisjointRanges rest

def disjointFromSpans (rs spans : List (Nat × Nat)) : Bool :=
  rs.all (fun r => spans.all (fun sp => !(rangeOverlaps r sp)))

/-- A per-file outcome map for the walker with one failing file. -/
def attemptW : List Char → Except (List Char) (List (List Char)) :=
  fun fp => if fp = ("b").data then Except.error (("boom").data) else Except.ok [fp]

/-!
Generic lemmas about the embedded operations.
-/

theorem fallbackTo_ne_nil (w : List Char) (cs : List (List Char)) :
    fallbackTo w cs ≠ [] := by
  unfold fallbackTo
  split
  · simp
  · rename_i h
    intro hc
    subst hc
    simp at h

theorem chunk_python_file_ne_nil (content : List Char) :
    chunk_python_file content ≠ [] := fallbackTo_ne_nil _ _

theorem chunk_c_style_file_ne_nil (content : List Char) :
    chunk_c_style_file content ≠ [] := fallbackTo_ne_nil _ _

theorem chunk_javascript_file_ne_nil (content : List Char) :
    chunk_javascript_file content ≠ [] := fallbackTo_ne_nil _ _

theorem splitNl_ne_nil (l : List Char) : splitNl l ≠ [] := by
  induction l with
  | nil => simp [splitNl]
  | cons c t ih =>
    simp only [splitNl]
    split
    · simp
    · cases h : splitNl t with
      | nil => exact absurd h ih
      | cons a r => simp [consHead]

theorem nl_not_mem_splitNl : ∀ {l p : List Char}, p ∈ splitNl l → nlChar ∉ p := by
  intro l
  induction l with
  | nil =>
    intro p hp
    simp [splitNl] at hp
    simp [hp]
  | cons c t ih =>
    intro p hp
    simp only [splitNl] at hp
    split at hp
    · rcases List.mem_cons.mp hp with h | h
      · simp [h]
      · exact ih h
    · rename_i hc
      cases h : splitNl t with
      | nil => exact absurd h (splitNl_ne_nil t)
      | cons a r =>
        rw [h] at hp
        simp only [consHead] at hp
        rcases List.mem_cons.mp hp with h' | h'
        · subst h'
          intro hmem
          rcases List.mem_cons.mp hmem with h'' | h''
          · exact hc h''.symm
          · exact ih (h ▸ List.mem_cons_self a r) h''
        · exact ih (h ▸ List.mem_cons_of_mem a h')

theorem splitNl_append_nl {a : List Char} (h : nlChar ∉ a) (rest : List Char) :
    splitNl (a ++ nlChar :: rest) = a :: splitNl rest := by
  induction a with
  | nil => simp [splitNl]
  | cons c a' ih =>
    have hc : ¬(c = nlChar) := fun hcc => h (hcc ▸ List.mem_cons_self c a')
    have ha : nlChar ∉ a' := fun hm => h (List.mem_cons_of_mem c hm)
    simp only [List.cons_append, splitNl, if_neg hc, List.append_eq]
    rw [ih ha]
    rfl

theorem splitNl_of_nlFree : ∀ {a : List Char}, nlChar ∉ a → splitNl a = [a] := by
  intro a
  induction a with
  | nil => intro _; rfl
  | cons c a' ih =>
    intro h
    have hc : ¬(c = nlChar) := fun hcc => h (hcc ▸ List.mem_cons_self c a')
    have ha : nlChar ∉ a' := fun hm => h (List.mem_cons_of_mem c hm)
    simp only [splitNl, if_neg hc, ih ha, consHead]

theorem mem_line_of_mem : ∀ {l : List Char} {c : Char}, c ∈ l → ¬(c = nlChar) →
    ∃ p ∈ splitNl l, c ∈ p := by
  intro l
  induction l with
  | nil => intro c hc; simp at hc
  | cons d t ih =>
    intro c hc hne
    simp only [splitNl]
    rcases List.mem_cons.mp hc with h | h
    · subst h
      rw [if_neg (by exact fun hd => hne hd)]
      cases hs : splitNl t with
      | nil => exact absurd hs (splitNl_ne_nil t)
      | cons a r =>
        exact ⟨c :: a, by simp [consHead], List.mem_cons_self c a⟩
    · rcases ih h hne with ⟨p, hp, hcp⟩
      split
      · exact ⟨p, List.mem_cons_of_mem _ hp, hcp⟩
      · cases hs : splitNl t with
        | nil => exact absurd hs (splitNl_ne_nil t)
        | cons a r =>
          rw [hs] at hp
          rcases List.mem_cons.mp hp with h' | h'
          · subst h'
            exact ⟨d :: p, by simp [consHead], List.mem_cons_of_mem d hcp⟩
          · exact ⟨p, by simp [consHead, h'], hcp⟩

theorem mem_joinNl_of_mem : ∀ {w : List (List Char)} {x : List Char}, x ∈ w →
    ∀ {c : Char}, c ∈ x → c ∈ joinNl w := by
  intro w
  induction w with
  | nil => intro x hx; simp at hx
  | cons y r ih =>
    intro x hx c hc
    cases r with
    | nil =>
      simp at hx
      subst hx
      simpa [joinNl] using hc
    | cons z r' =>
      simp only [joinNl]
      rcases List.mem_cons.mp hx with h | h
      · exact List.mem_append_left _ (h ▸ hc)
      · exact List.mem_append_right _ (List.mem_cons_of_mem _ (ih h hc))

theorem startsWith_self : ∀ (p : List Char), startsWith p p = true := by
  intro p
  induction p with
  | nil => rfl
  | cons c t ih => simp [startsWith, ih]

theorem startsWith_extend : ∀ {p s : List Char}, startsWith p s = true →
    ∀ (t : List Char), startsWith p (s ++ t) = true := by
  intro p
  induction p with
  | nil => intro s _ t; rfl
  | cons c p' ih =>
    intro s hs t
    cases s with
    | nil => simp [startsWith] at hs
    | cons d s' =>
      simp only [startsWith, Bool.and_eq_true] at hs
      simp only [List.cons_append, startsWith, Bool.and_eq_true]
      exact ⟨hs.1, ih hs.2 t⟩

theorem occursIn_of_startsWith {p l : List Char} (h : startsWith p l = true) :
    occursIn p l = true := by
  cases l with
  | nil => simpa [occursIn] using h
  | cons c t => simp [occursIn, h]

theorem occursIn_self (p : List Char) : occursIn p p = true :=
  occursIn_of_startsWith (startsWith_self p)

theorem occursIn_nil_pat (l : List Char) : occursIn [] l = true := by
  cases l <;> simp [occursIn, startsWith]

theorem occursIn_append_left : ∀ {s : List Char} {p : List Char},
    occursIn p s = true → ∀ (t : List Char), occursIn p (s ++ t) = true := by
  intro s
  induction s with
  | nil =>
    intro p hp t
    cases p with
    | nil => exact occursIn_nil_pat t
    | cons c q => simp [occursIn, startsWith] at hp
  | cons c s' ih =>
    intro p hp t
    simp only [occursIn, Bool.or_eq_true] at hp
    simp only [List.cons_append, occursIn, Bool.or_eq_true]
    rcases hp with h | h
    · exact Or.inl (by simpa using startsWith_extend (by simpa using h) t)
    · exact Or.inr (ih h t)

theorem occursIn_append_right : ∀ (s : List Char) {p t : List Char},
    occursIn p t = true → occursIn p (s ++ t) = true := by
  intro s
  induction s with
  | nil => intro p t h; simpa using h
  | cons c s' ih =>
    intro p t h
    simp only [List.cons_append, occursIn, Bool.or_eq_true]
    exact Or.inr (ih h)

theorem occursIn_joinNl_of_mem : ∀ {w : List (List Char)} {x : List Char}, x ∈ w →
    occursIn x (joinNl w) = true := by
  intro w
  induction w with
  | nil => intro x hx; simp at hx
  | cons y r ih =>
    intro x hx
    cases r with
    | nil =>
      simp at hx
      subst hx
      simpa [joinNl] using occursIn_self x
    | cons z r' =>
      simp only [joinNl]
      rcases List.mem_cons.mp hx with h | h
      · exact h ▸ occursIn_append_left (occursIn_self x) _
      · exact occursIn_append_right y
          (show occursIn x (nlChar :: joinNl (z :: r')) = true from
            occursIn_append_right [nlChar] (ih h))

theorem hasNonWS_dropWhile {l : List Char} (h : hasNonWS l = true) :
    hasNonWS (l.dropWhile isSpaceChar) = true := by
  induction l with
  | nil => simp [hasNonWS] at h
  | cons c t ih =>
    by_cases hc : isSpaceChar c = true
    · rw [List.dropWhile_cons_of_pos hc]
      apply ih
      simpa [hasNonWS, hc] using h
    · rwa [List.dropWhile_cons_of_neg hc]

theorem hasNonWS_reverse (l : List Char) : hasNonWS l.reverse = hasNonWS l := by
  simp [hasNonWS, List.any_eq_true]

theorem ne_nil_of_hasNonWS {l : List Char} (h : hasNonWS l = true) : l ≠ [] := by
  intro hl
  subst hl
  simp [hasNonWS] at h

theorem stripWS_ne_nil_of_hasNonWS {l : List Char} (h : hasNonWS l = true) :
    stripWS l ≠ [] := by
  unfold stripWS
  have h1 := hasNonWS_dropWhile h
  have h2 : hasNonWS ((l.dropWhile isSpaceChar).reverse) = true := by
    rwa [hasNonWS_reverse]
  have h3 := hasNonWS_dropWhile h2
  have h4 : hasNonWS ((((l.dropWhile isSpaceChar).reverse).dropWhile isSpaceChar).reverse) = true := by
    rwa [hasNonWS_reverse]
  exact ne_nil_of_hasNonWS h4

theorem windowsAux_flatten {α : Type} {n : Nat} (hn : 0 < n) :
    ∀ (fuel : Nat) (l : List α), l.length ≤ fuel → (windowsAux n fuel l).flatten = l := by
  intro fuel
  induction fuel with
  | zero =>
    intro l hl
    have : l = [] := List.length_eq_zero.mp (Nat.le_zero.mp hl)
    subst this
    rfl
  | succ fuel ih =>
    intro l hl
    cases l with
    | nil => rfl
    | cons x t =>
      simp only [windowsAux, List.flatten]
      rw [ih ((x :: t).drop n) ?_]
      · exact List.take_append_drop n (x :: t)
      · have hlen : ((x :: t).drop n).length = (x :: t).length - n := List.length_drop n (x :: t)
        rw [hlen]
        simp only [List.length_cons] at hl ⊢
        omega

theorem exists_window_of_mem {α : Type} {n : Nat} (hn : 0 < n) {l : List α} {x : α}
    (hx : x ∈ l) : ∃ w ∈ windows n l, x ∈ w := by
  have hjoin : (windows n l).flatten = l := by
    unfold windows
    rw [if_neg (Nat.pos_iff_ne_zero.mp hn)]
    exact windowsAux_flatten hn l.length l (Nat.le_refl _)
  exact List.mem_flatten.mp (by rw [hjoin]; exact hx)

theorem mem_chunk_by_lines_of_window {content : List Char} {maxLines : Nat}
    {w : List (List Char)} (hw : w ∈ windows maxLines (splitNl content))
    (h : stripWS (joinNl w) ≠ []) : joinNl w ∈ chunk_by_lines content maxLines := by
  unfold chunk_by_lines
  exact List.mem_filterMap.mpr ⟨w, hw, by simp [h]⟩

theorem chunk_by_lines_covers {content : List Char} {maxLines : Nat} (hml : 0 < maxLines)
    {line : List Char} (hline : line ∈ splitNl content) (hNW : hasNonWS line = true) :
    ∃ ch ∈ chunk_by_lines content maxLines, occursIn line ch = true := by
  rcases exists_window_of_mem hml hline with ⟨w, hw, hlw⟩
  have hNWch : hasNonWS (joinNl w) = true := by
    rcases List.any_eq_true.mp hNW with ⟨c, hc, hcs⟩
    exact List.any_eq_true.mpr ⟨c, mem_joinNl_of_mem hlw hc, hcs⟩
  exact ⟨joinNl w, mem_chunk_by_lines_of_window hw (stripWS_ne_nil_of_hasNonWS hNWch),
    occursIn_joinNl_of_mem hlw⟩

theorem chunk_by_lines_ne_nil {content : List Char} {maxLines : Nat} (hml : 0 < maxLines)
    (h : hasNonWS content = true) : chunk_by_lines content maxLines ≠ [] := by
  rcases List.any_eq_true.mp h with ⟨c, hc, hcs⟩
  have hcnl : ¬(c = nlChar) := by
    intro hcc
    subst hcc
    exact absurd hcs (by decide)
  rcases mem_line_of_mem hc hcnl with ⟨p, hp, hcp⟩
  have hNWp : hasNonWS p = true := List.any_eq_true.mpr ⟨c, hcp, hcs⟩
  rcases chunk_by_lines_covers hml hp hNWp with ⟨ch, hch, _⟩
  exact List.ne_nil_of_mem hch

theorem chunk_code_file_ne_nil (content path : List Char) (h : hasNonWS content = true) :
    chunk_code_file content path ≠ [] := by
  simp only [chunk_code_file]
  split
  · exact chunk_python_file_ne_nil content
  · split
    · exact chunk_c_style_file_ne_nil content
    · split
      · exact chunk_javascript_file_ne_nil content
      · exact chunk_by_lines_ne_nil (by omega) h

/-!
Lemmas about the scanners: a section free of the mandatory leading keywords
of a pattern admits no match of that pattern.
-/

theorem litM_startsWith : ∀ {kw cs r : List Char}, litM kw cs = some r →
    startsWith kw cs = true := by
  intro kw
  induction kw with
  | nil => intro cs r _; rfl
  | cons p ps ih =>
    intro cs r h
    cases cs with
    | nil => simp [litM] at h
    | cons c t =>
      simp only [litM] at h
      split at h
      · rename_i hcp
        simp [startsWith, hcp, ih h]
      · exact absurd h (by simp)

theorem occursIn_tail {p c : _} {t : List Char} (h : occursIn p (c :: t) = false) :
    occursIn p t = false := by
  simp only [occursIn, Bool.or_eq_false_iff] at h
  exact h.2

theorem tryLits_some_mem : ∀ {kws : List (List Char)} {cs r : List Char},
    tryLits kws cs = some r → ∃ kw ∈ kws, ∃ r', litM kw cs = some r' := by
  intro kws
  induction kws with
  | nil => intro cs r h; simp [tryLits] at h
  | cons k ks ih =>
    intro cs r h
    simp only [tryLits] at h
    cases hk : litM k cs with
    | some v => exact ⟨k, List.mem_cons_self k ks, v, hk⟩
    | none =>
      rw [hk] at h
      rcases ih h with ⟨kw, hkw, r', hr'⟩
      exact ⟨kw, List.mem_cons_of_mem k hkw, r', hr'⟩

theorem cMethodRest_none {cs : List Char}
    (h : ∀ kw ∈ methodMods, occursIn kw cs = false) : cMethodRest cs = none := by
  unfold cMethodRest
  cases htl : tryLits methodMods cs with
  | none => rfl
  | some r =>
    rcases tryLits_some_mem htl with ⟨kw, hkw, r', hr'⟩
    have := occursIn_of_startsWith (litM_startsWith hr')
    rw [h kw hkw] at this
    exact absurd this (by simp)

theorem cMethodScan_fuel_nil : ∀ (fuel : Nat) (sec : List Char),
    (∀ kw ∈ methodMods, occursIn kw sec = false) →
    scanAll (stepOfRest cMethodRest) fuel sec = [] := by
  intro fuel
  induction fuel with
  | zero => intro sec _; rfl
  | succ fuel ih =>
    intro sec h
    have hstep : stepOfRest cMethodRest sec = none := by
      unfold stepOfRest
      rw [cMethodRest_none h]
    simp only [scanAll, hstep]
    cases sec with
    | nil => rfl
    | cons c t => exact ih t (fun kw hkw => occursIn_tail (h kw hkw))

theorem cMethodScan_nil {sec : List Char}
    (h : ∀ kw ∈ methodMods, occursIn kw sec = false) : cMethodScan sec = [] :=
  cMethodScan_fuel_nil (sec.length + 1) sec h

theorem sliceL_full (l : List Char) : sliceL l 0 l.length = l := by
  simp [sliceL]

theorem sortPairs_single (x : Nat × Nat) : sortPairs [x] = [x] := rfl

theorem uncoveredRanges_nil (len : Nat) : uncoveredRanges len [] = [(0, len)] := rfl

theorem uncoveredRanges_single (len : Nat) (s e : Nat) :
    uncoveredRanges len [(s, e)] =
      (if 0 < s then [(0, s)] else []) ++ (if e < len then [(e, len)] else []) := by
  simp [uncoveredRanges, sortPairs, insPair, subtractSpan]

/-!
Helpers for the zero-structural-match behaviour of the chunkers.
-/

theorem removeAllOcc_nil (text : List Char) : removeAllOcc text [] = text := rfl

theorem pyResidue_length_le (content : List Char) : (pyResidue content).length ≤ 1 := by
  simp only [pyResidue]
  split <;> simp

theorem chunk_python_file_zero {content : List Char} (hc : pyClassScan content = [])
    (hf : pyFuncScan content = []) : chunk_python_file content = [content] := by
  simp only [chunk_python_file]
  rw [hc, removeAllOcc_nil, hf, removeAllOcc_nil]
  unfold fallbackTo
  rw [if_pos]
  simpa using pyResidue_length_le content

theorem chunk_c_style_file_zero {content : List Char} (hc : cClassSpans content = [])
    (hm : cMethodScan content = []) (hi : cImportScan content = []) :
    chunk_c_style_file content = [content] := by
  have hsegs : cClassSegs content = [] := by
    unfold cClassSegs
    rw [hc]
    rfl
  have hmsegs : cMethodSegs content = [] := by
    unfold cMethodSegs
    rw [hc, uncoveredRanges_nil]
    simp [sliceL_full, hm]
  simp only [chunk_c_style_file]
  rw [hsegs, hmsegs, if_pos hi]
  rfl

theorem jsFuncScanSection_nil_of (sec : List Char)
    (h : ∀ f ∈ jsFuncRests, scanAll (stepOfRest f) (sec.length + 1) sec = []) :
    jsFuncScanSection sec = [] := by
  unfold jsFuncScanSection
  exact List.flatMap_eq_nil_iff.mpr (fun f hf => h f hf)

theorem chunk_javascript_file_zero {content : List Char}
    (hc : jsClassSpans content = []) (hf : jsFuncScanSection content = [])
    (hi : jsImportScan content = []) : chunk_javascript_file content = [content] := by
  have hsegs : jsClassSegs content = [] := by
    unfold jsClassSegs
    rw [hc]
    rfl
  have hfsegs : jsFuncSegs content = [] := by
    unfold jsFuncSegs
    rw [hc, uncoveredRanges_nil]
    simp [sliceL_full, hf]
  simp only [chunk_javascript_file]
  rw [hsegs, hfsegs, if_pos hi]
  rfl

/-!
Lemmas about the indexing-id assignment and the store.
-/

theorem enumL_map_fst (l : List (List Char)) :
    (enumL l).map Prod.fst = List.range l.length := by
  unfold enumL
  exact List.map_fst_zip _ _ (by simp)

theorem runPointsAux_ids {bs : Nat} (hbs : 0 < bs) :
    ∀ (fuel i : Nat) (rem : List (List Char)), rem.length ≤ fuel →
    (runPointsAux bs fuel i rem).map Prod.fst = List.range' i rem.length := by
  intro fuel
  induction fuel with
  | zero =>
    intro i rem h
    have : rem = [] := List.length_eq_zero.mp (Nat.le_zero.mp h)
    subst this
    rfl
  | succ fuel ih =>
    intro i rem h
    cases rem with
    | nil => rfl
    | cons c t =>
      simp only [runPointsAux, List.map_append, List.map_map]
      have h1 : ((runPointsAux bs fuel (i + bs) ((c :: t).drop bs)).map Prod.fst) =
          List.range' (i + bs) ((c :: t).length - bs) := by
        rw [ih (i + bs) ((c :: t).drop bs) ?_, List.length_drop]
        rw [List.length_drop]
        simp only [List.length_cons] at h ⊢
        omega
      have h2 : (Prod.fst ∘ fun jc : Nat × List Char => (i + jc.1, jc.2)) =
          ((i + ·) ∘ Prod.fst) := rfl
      rw [h2, ← List.map_map, enumL_map_fst, List.length_take, List.range_eq_range',
        List.map_add_range', h1, Nat.add_zero]
      rcases le_or_lt bs (c :: t).length with hle | hlt
      · rw [Nat.min_eq_left hle, List.range'_append_1]
        congr 1
        omega
      · rw [Nat.min_eq_right (Nat.le_of_lt hlt)]
        have : (c :: t).length - bs = 0 := by omega
        rw [this]
        simp

theorem runPoints_ids (chunks : List (List Char)) {bs : Nat} (hbs : 0 < bs) :
    (runPoints chunks bs).map Prod.fst = List.range chunks.length := by
  unfold runPoints
  rw [runPointsAux_ids hbs chunks.length 0 chunks (Nat.le_refl _), List.range_eq_range']

theorem findLastVal_init (x : Nat) : ∀ (pts : List (Nat × List Char)) (init : Option (List Char)),
    pts.foldl (fun acc p => if x = p.1 then some p.2 else acc) init =
      match findLastVal pts x with
      | some v => some v
      | none => init := by
  intro pts
  induction pts with
  | nil => intro init; rfl
  | cons p pts ih =>
    intro init
    show pts.foldl _ (if x = p.1 then some p.2 else init) = _
    rw [ih (if x = p.1 then some p.2 else init)]
    have hR : findLastVal (p :: pts) x =
        match findLastVal pts x with
        | some v => some v
        | none => (if x = p.1 then some p.2 else none) := by
      show pts.foldl _ (if x = p.1 then some p.2 else none) = _
      rw [ih (if x = p.1 then some p.2 else none)]
    rw [hR]
    cases findLastVal pts x with
    | some v => rfl
    | none =>
      by_cases hx : x = p.1 <;> simp [hx]

theorem upsertPoints_apply : ∀ (pts : List (Nat × List Char))
    (store : Nat → Option (List Char)) (x : Nat),
    upsertPoints store pts x =
      match findLastVal pts x with
      | some v => some v
      | none => store x := by
  intro pts
  induction pts with
  | nil => intro store x; rfl
  | cons p pts ih =>
    intro store x
    show upsertPoints (fun y => if y = p.1 then some p.2 else store y) pts x = _
    rw [ih]
    have hR : findLastVal (p :: pts) x =
        match findLastVal pts x with
        | some v => some v
        | none => (if x = p.1 then some p.2 else none) := by
      show pts.foldl _ (if x = p.1 then some p.2 else none) = _
      rw [findLastVal_init]
    rw [hR]
    cases findLastVal pts x with
    | some v => rfl
    | none =>
      by_cases hx : x = p.1 <;> simp [hx]

theorem upsertPoints_overwrite (store : Nat → Option (List Char))
    (pts : List (Nat × List Char)) :
    upsertPoints (upsertPoints store pts) pts = upsertPoints store pts := by
  funext x
  rw [upsertPoints_apply, upsertPoints_apply]
  cases findLastVal pts x with
  | some v => rfl
  | none => rfl

/-!
Lemmas about the walker's per-file isolation.
-/

theorem foldl_append_contrib (g : List Char → List (List Char × Nat × List Char)) :
    ∀ (files : List (List Char)) (init : List (List Char × Nat × List Char)),
    files.foldl (fun acc fp => acc ++ g fp) init = init ++ files.flatMap g := by
  intro files
  induction files with
  | nil => intro init; simp
  | cons f fs ih =>
    intro init
    simp only [List.foldl_cons, List.flatMap_cons, ih, List.append_assoc]

theorem processRepoChunks_eq_flatMap (files : List (List Char))
    (attempt : List Char → Except (List Char) (List (List Char))) :
    processRepoChunks files attempt =
      files.flatMap (fun fp => fileContribution fp (attempt fp)) := by
  unfold processRepoChunks
  rw [foldl_append_contrib]
  rfl

theorem fileContribution_error (fp : List Char) (e : List Char) :
    fileContribution fp (Except.error e) = [] := by
  unfold fileContribution
  split <;> rfl

theorem processRepoChunks_skips_error (pre post : List (List Char)) (fp : List Char)
    (attempt : List Char → Except (List Char) (List (List Char))) (e : List Char)
    (h : attempt fp = Except.error e) :
    processRepoChunks (pre ++ fp :: post) attempt = processRepoChunks (pre ++ post) attempt := by
  rw [processRepoChunks_eq_flatMap, processRepoChunks_eq_flatMap]
  simp only [List.flatMap_append, List.flatMap_cons]
  rw [h, fileContribution_error]
  simp

theorem chunk_by_lines_empty (maxLines : Nat) : chunk_by_lines [] maxLines = [] := by
  cases maxLines with
  | zero => rfl
  | succ m =>
    simp [chunk_by_lines, windows, splitNl, windowsAux, joinNl, stripWS]

theorem length_five_cases {α : Type} {l : List α} (h : l.length = 5) :
    ∃ a b c d e, l = [a, b, c, d, e] := by
  cases l with
  | nil => simp at h
  | cons a l =>
    cases l with
    | nil => simp at h
    | cons b l =>
      cases l with
      | nil => simp at h
      | cons c l =>
        cases l with
        | nil => simp at h
        | cons d l =>
          cases l with
          | nil => simp at h
          | cons e l =>
            cases l with
            | nil => exact ⟨a, b, c, d, e, rfl⟩
            | cons f l =>
              simp only [List.length_cons, List.length_nil] at h
              omega

/-!
The claims.
-/

/-- Claim C1, counterexample.  The claim says every non-empty input yields a
non-empty segment sequence whose concatenation contains every non-whitespace
line.  Both parts fail: a whitespace-only input makes chunk_by_lines return
the empty sequence, and an indented orphan line before a class and a
function is dropped by chunk_python_file (it is in no returned segment and
in neither order of their concatenation). -/
theorem c1_counterexample :
    (chunk_by_lines ((" ").data) 100 = [] ∧ (" ").data ≠ ([] : List Char)) ∧
    (chunk_python_file orphanPy =
        [(("class A:\n    pass").data), (("def f():\n    pass").data)] ∧
      orphanLine ∈ splitNl orphanPy ∧ hasNonWS orphanLine = true ∧
      (chunk_python_file orphanPy).all (fun seg => !(occursIn orphanLine seg)) = true ∧
      occursIn orphanLine
        ((("class A:\n    pass").data) ++ (("def f():\n    pass").data)) = false ∧
      occursIn orphanLine
        ((("def f():\n    pass").data) ++ (("class A:\n    pass").data)) = false) := by
  decide

/-- Claim C1, amended: for inputs holding at least one non-whitespace
character every family returns a non-empty sequence (the three structural
families do so for every non-empty input), and for the line-window fallback
the returned chunks contain every non-whitespace line of the input; the
structural families may drop indented residual lines. -/
theorem c1_amended :
    (∀ content : List Char, content ≠ [] →
      chunk_python_file content ≠ [] ∧ chunk_c_style_file content ≠ [] ∧
        chunk_javascript_file content ≠ []) ∧
    (∀ (content : List Char) (maxLines : Nat), 0 < maxLines →
      hasNonWS content = true → chunk_by_lines content maxLines ≠ []) ∧
    (∀ (content : List Char) (maxLines : Nat), 0 < maxLines →
      ∀ line ∈ splitNl content, hasNonWS line = true →
      ∃ ch ∈ chunk_by_lines content maxLines, occursIn line ch = true) ∧
    (∀ content path : List Char, hasNonWS content = true →
      chunk_code_file content path ≠ []) :=
  ⟨fun content _ => ⟨chunk_python_file_ne_nil content, chunk_c_style_file_ne_nil content,
      chunk_javascript_file_ne_nil content⟩,
   fun _ _ hml h => chunk_by_lines_ne_nil hml h,
   fun _ _ hml _ hline hNW => chunk_by_lines_covers hml hline hNW,
   fun content path h => chunk_code_file_ne_nil content path h⟩

/-- Claim C1, witness for the amended statement at concrete inputs. -/
theorem c1_witness :
    chunk_python_file (("x").data) ≠ [] ∧
    chunk_by_lines (("x").data) 100 ≠ [] ∧
    (∃ ch ∈ chunk_by_lines (("x").data) 100, occursIn (("x").data) ch = true) ∧
    chunk_code_file (("x").data) (("a.txt").data) ≠ [] := by
  obtain ⟨h1, h2, h3, h4⟩ := c1_amended
  exact ⟨(h1 (("x").data) (by decide)).1,
    h2 (("x").data) 100 (by decide) (by decide),
    h3 (("x").data) 100 (by decide) (("x").data) (by decide) (by decide),
    h4 (("x").data) (("a.txt").data) (by decide)⟩

/-- Claim C2: for a python input that is exactly one class, the code
returns the mutated working copy (empty after the class was deleted from
it), not the class text: the fallback `return [content]` reads the variable
that the replace loop emptied, contradicting its own comment that it
returns the whole file. -/
theorem c2_bug_eval :
    chunk_python_file pyOneClass = [[]] ∧ pyOneClass ≠ [] ∧
    chunk_python_file pyOneClass ≠ [pyOneClass] := by
  decide

/-- Claim C3, counterexample.  The claim says every empty input yields the
empty sequence; the python family (and the dispatcher on a .py path)
returns the one-element sequence holding the empty string. -/
theorem c3_counterexample :
    chunk_python_file [] = [[]] ∧ chunk_code_file [] (("a.py").data) = [[]] ∧
    ([[]] : List (List Char)) ≠ [] := by
  decide

/-- Claim C3, amended: the segmenter is total (every embedded family is a
total function); on empty input the line-window fallback returns the empty
sequence while the three structural families return one segment holding the
empty string; and every input with a non-whitespace character yields at
least one segment under every dispatch path. -/
theorem c3_amended :
    (∀ maxLines : Nat, chunk_by_lines [] maxLines = []) ∧
    (chunk_python_file [] = [[]] ∧ chunk_c_style_file [] = [[]] ∧
      chunk_javascript_file [] = [[]]) ∧
    (∀ content path : List Char, hasNonWS content = true →
      chunk_code_file content path ≠ []) :=
  ⟨chunk_by_lines_empty, ⟨by decide, by decide, by decide⟩,
   fun content path h => chunk_code_file_ne_nil content path h⟩

/-- Claim C3, witness at concrete inputs. -/
theorem c3_witness :
    chunk_by_lines [] 100 = [] ∧ chunk_code_file (("x").data) (("a.txt").data) ≠ [] :=
  ⟨c3_amended.1 100, c3_amended.2.2 (("x").data) (("a.txt").data) (by decide)⟩

/-- Claim C4, counterexample.  Running the pipeline twice over the same one
chunk re-assigns id 0 both times; the second run's upsert overwrites the
first, leaving one entry, not two sets with distinct ids. -/
theorem c4_counterexample :
    (runPoints [("a").data] 32).map Prod.fst = [0] ∧
    indexRun (indexRun (fun _ => none) [("a").data] 32) [("a").data] 32 0 =
      some (("a").data) ∧
    indexRun (indexRun (fun _ => none) [("a").data] 32) [("a").data] 32 1 = none := by
  decide

/-- Claim C4, amended: a run always upserts ids 0..n-1, so a second run
over the same root re-uses exactly the same ids and its upserts overwrite
the first run's entries; the store after two runs equals the store after
one. -/
theorem c4_amended :
    ∀ (chunks : List (List Char)) (bs : Nat), 0 < bs →
    ∀ store : Nat → Option (List Char),
    (runPoints chunks bs).map Prod.fst = List.range chunks.length ∧
    indexRun (indexRun store chunks bs) chunks bs = indexRun store chunks bs :=
  fun chunks _ hbs store =>
    ⟨runPoints_ids chunks hbs, upsertPoints_overwrite store (runPoints chunks _)⟩

/-- Claim C4, witness at the batch size the code uses. -/
theorem c4_witness :
    (runPoints [("a").data] 32).map Prod.fst = List.range 1 ∧
    indexRun (indexRun (fun _ => none) [("a").data] 32) [("a").data] 32 =
      indexRun (fun _ => none) [("a").data] 32 :=
  c4_amended [("a").data] 32 (by decide) (fun _ => none)

/-- Claim C5, counterexample.  With two configured repositories of one
chunk each, the ids passed to upsert over the whole run are [0, 0]: not
pairwise distinct and not increasing, because the counter restarts at 0 in
every process_repository call. -/
theorem c5_counterexample :
    mainRunIds [[("a").data], [("b").data]] 32 = [0, 0] ∧
    ¬ List.Pairwise (fun a b => ¬(a = b)) (mainRunIds [[("a").data], [("b").data]] 32) ∧
    ¬ List.Pairwise (fun a b => a < b) (mainRunIds [[("a").data], [("b").data]] 32) := by
  decide

/-- Claim C5, amended: within one process_repository call the upserted ids
are exactly 0..n-1, strictly increasing and pairwise distinct; the counter
is scoped per repository, not per run. -/
theorem c5_amended :
    ∀ (chunks : List (List Char)) (bs : Nat), 0 < bs →
    (runPoints chunks bs).map Prod.fst = List.range chunks.length ∧
    List.Pairwise (fun a b => a < b) ((runPoints chunks bs).map Prod.fst) := by
  intro chunks bs hbs
  refine ⟨runPoints_ids chunks hbs, ?_⟩
  rw [runPoints_ids chunks hbs]
  exact List.pairwise_lt_range chunks.length

/-- Claim C5, witness. -/
theorem c5_witness :
    (runPoints [("a").data, ("b").data] 32).map Prod.fst = List.range 2 ∧
    List.Pairwise (fun a b => a < b)
      ((runPoints [("a").data, ("b").data] 32).map Prod.fst) :=
  c5_amended [("a").data, ("b").data] 32 (by decide)

/-- Claim C6: when a family's structural patterns find zero matches on the
input, the family function returns exactly the one-element sequence holding
the original, unmodified input. -/
theorem c6_zero_matches :
    (∀ content : List Char, pyClassScan content = [] → pyFuncScan content = [] →
      chunk_python_file content = [content]) ∧
    (∀ content : List Char, cClassSpans content = [] → cMethodScan content = [] →
      cImportScan content = [] → chunk_c_style_file content = [content]) ∧
    (∀ content : List Char, jsClassSpans content = [] → jsFuncScanSection content = [] →
      jsImportScan content = [] → chunk_javascript_file content = [content]) :=
  ⟨fun _ hc hf => chunk_python_file_zero hc hf,
   fun _ hc hm hi => chunk_c_style_file_zero hc hm hi,
   fun _ hc hf hi => chunk_javascript_file_zero hc hf hi⟩

/-- Claim C6, witness: a two-line input with no structural matches in any
family. -/
theorem c6_witness :
    chunk_python_file (("x = 1\ny = 2").data) = [(("x = 1\ny = 2").data)] ∧
    chunk_c_style_file (("x = 1\ny = 2").data) = [(("x = 1\ny = 2").data)] ∧
    chunk_javascript_file (("x = 1\ny = 2").data) = [(("x = 1\ny = 2").data)] :=
  ⟨c6_zero_matches.1 (("x = 1\ny = 2").data) (by decide) (by decide),
   c6_zero_matches.2.1 (("x = 1\ny = 2").data) (by decide) (by decide) (by decide),
   c6_zero_matches.2.2 (("x = 1\ny = 2").data) (by decide) (by decide) (by decide)⟩

/-- Claim C7: when the class pattern records exactly one span and the nine
method-modifier keywords (the mandatory first token of the method pattern)
do not occur outside that span, the method-extraction pass over the
uncovered ranges produces zero segments: methods inside the class are
consumed by the class match and are not re-extracted. -/
theorem c7_method_pass_empty :
    ∀ (content : List Char) (s e : Nat), cClassSpans content = [(s, e)] →
    (∀ kw ∈ methodMods, occursIn kw (sliceL content 0 s) = false) →
    (∀ kw ∈ methodMods, occursIn kw (sliceL content e content.length) = false) →
    cMethodSegs content = [] := by
  intro content s e hspan h0 h1
  unfold cMethodSegs
  rw [hspan, uncoveredRanges_single]
  have hm0 : cMethodScan (sliceL content 0 s) = [] := cMethodScan_nil h0
  have hm1 : cMethodScan (sliceL content e content.length) = [] := cMethodScan_nil h1
  by_cases hs : 0 < s <;> by_cases he : e < content.length <;>
    simp [hs, he, hm0, hm1]

/-- Claim C7, witness: a class with two methods and nothing else; the class
match covers bytes 0..92, the method pass adds nothing, and the method
pattern does match inside the class body when scanned directly (so the
conclusion is not vacuous). -/
theorem c7_witness :
    cClassSpans c7content = [(0, 92)] ∧ cMethodSegs c7content = [] ∧
    cMethodScan (sliceL c7content 16 92) ≠ [] := by
  refine ⟨by decide,
    c7_method_pass_empty c7content 0 92 (by decide) (by decide) (by decide), by decide⟩

/-- Claim C8: the walker's per-file loop is a fold of per-file
contributions; a file whose processing raises contributes nothing, and
deleting a failing file from the walk leaves the result unchanged — no
per-file failure propagates or affects other files. -/
theorem c8_isolation :
    (∀ (files : List (List Char))
      (attempt : List Char → Except (List Char) (List (List Char))),
      processRepoChunks files attempt =
        files.flatMap (fun fp => fileContribution fp (attempt fp))) ∧
    (∀ (fp e : List Char), fileContribution fp (Except.error e) = []) ∧
    (∀ (pre post : List (List Char)) (fp : List Char)
      (attempt : List Char → Except (List Char) (List (List Char))) (e : List Char),
      attempt fp = Except.error e →
      processRepoChunks (pre ++ fp :: post) attempt =
        processRepoChunks (pre ++ post) attempt) :=
  ⟨processRepoChunks_eq_flatMap, fileContribution_error, processRepoChunks_skips_error⟩

/-- Claim C8, witness: three files where the middle one fails; the other
two contribute their chunks with ordinals and the failing one nothing. -/
theorem c8_witness :
    attemptW (("b").data) = Except.error (("boom").data) ∧
    processRepoChunks ([("a").data] ++ ("b").data :: [("c").data]) attemptW =
      processRepoChunks ([("a").data] ++ [("c").data]) attemptW ∧
    processRepoChunks ([("a").data] ++ ("b").data :: [("c").data]) attemptW =
      [((("a").data), 0, (("a").data)), ((("c").data), 0, (("c").data))] :=
  ⟨rfl,
   c8_isolation.2.2 [("a").data] [("c").data] (("b").data) attemptW (("boom").data) rfl,
   by decide⟩

/-- Claim C9: chunk_by_lines with max_lines = 2 on any 5-line input whose
three 2-line windows each contain a non-whitespace character yields exactly
3 chunks of at most 2 lines each, none empty after strip. -/
theorem c9_five_lines :
    ∀ content : List Char, (splitNl content).length = 5 →
    (∀ w ∈ windows 2 (splitNl content), hasNonWS (joinNl w) = true) →
    (chunk_by_lines content 2).length = 3 ∧
    ∀ ch ∈ chunk_by_lines content 2, (splitNl ch).length ≤ 2 ∧ stripWS ch ≠ [] := by
  intro content h5 hw
  obtain ⟨a, b, c, d, e, hsp⟩ := length_five_cases h5
  have hwin : windows 2 (splitNl content) = [[a, b], [c, d], [e]] := by
    rw [hsp]
    rfl
  have hnl : ∀ p ∈ splitNl content, nlChar ∉ p := fun p hp => nl_not_mem_splitNl hp
  have hna : nlChar ∉ a := hnl a (by rw [hsp]; simp)
  have hnb : nlChar ∉ b := hnl b (by rw [hsp]; simp)
  have hnc : nlChar ∉ c := hnl c (by rw [hsp]; simp)
  have hnd : nlChar ∉ d := hnl d (by rw [hsp]; simp)
  have hne : nlChar ∉ e := hnl e (by rw [hsp]; simp)
  have k1 : stripWS (joinNl [a, b]) ≠ [] :=
    stripWS_ne_nil_of_hasNonWS (hw [a, b] (by rw [hwin]; simp))
  have k2 : stripWS (joinNl [c, d]) ≠ [] :=
    stripWS_ne_nil_of_hasNonWS (hw [c, d] (by rw [hwin]; simp))
  have k3 : stripWS (joinNl [e]) ≠ [] :=
    stripWS_ne_nil_of_hasNonWS (hw [e] (by rw [hwin]; simp))
  have hch : chunk_by_lines content 2 = [joinNl [a, b], joinNl [c, d], joinNl [e]] := by
    unfold chunk_by_lines
    rw [hwin]
    simp only [List.filterMap_cons, List.filterMap_nil, if_neg k1, if_neg k2, if_neg k3]
  refine ⟨by rw [hch]; rfl, ?_⟩
  intro ch hch'
  rw [hch] at hch'
  have hsplit2 : splitNl (joinNl [a, b]) = [a, b] := by
    show splitNl (a ++ nlChar :: b) = [a, b]
    rw [splitNl_append_nl hna, splitNl_of_nlFree hnb]
  have hsplit2' : splitNl (joinNl [c, d]) = [c, d] := by
    show splitNl (c ++ nlChar :: d) = [c, d]
    rw [splitNl_append_nl hnc, splitNl_of_nlFree hnd]
  have hsplit1 : splitNl (joinNl [e]) = [e] := by
    show splitNl e = [e]
    exact splitNl_of_nlFree hne
  rcases List.mem_cons.mp hch' with h1 | hch'
  · subst h1
    exact ⟨by rw [hsplit2]; simp, k1⟩
  rcases List.mem_cons.mp hch' with h2 | hch'
  · subst h2
    exact ⟨by rw [hsplit2']; simp, k2⟩
  rcases List.mem_cons.mp hch' with h3 | hch'
  · subst h3
    have hs1 : splitNl ch = [ch] := hsplit1
    exact ⟨by rw [hs1]; simp, k3⟩
  · simp at hch'

/-- Claim C9, witness on the five lines a..e. -/
theorem c9_witness :
    (chunk_by_lines (("a\nb\nc\nd\ne").data) 2).length = 3 ∧
    ∀ ch ∈ chunk_by_lines (("a\nb\nc\nd\ne").data) 2,
      (splitNl ch).length ≤ 2 ∧ stripWS ch ≠ [] :=
  c9_five_lines (("a\nb\nc\nd\ne").data) (by decide) (by decide)

/-- Claim C10: on a file with text before two classes, the uncovered-range
computation emits a range that overlaps both another emitted range and the
recorded class spans — the invariant the claim states (sorted, pairwise
disjoint, disjoint from every class span) does not hold, contradicting the
code's own comment that these are the positions not covered by classes. -/
theorem c10_bug_eval :
    cClassSpans c10content = [(1, 15), (17, 31)] ∧
    uncoveredRanges c10content.length (cClassSpans c10content) =
      [(0, 17), (15, 17), (31, 33)] ∧
    pairwiseDisjointRanges
      (uncoveredRanges c10content.length (cClassSpans c10content)) = false ∧
    disjointFromSpans (uncoveredRanges c10content.length (cClassSpans c10content))
      (cClassSpans c10content) = false := by
  decide
